import Mathlib

/-!
Verification of the wordlist generator's mutation/expansion engine
(`Advanced_WLG.py`), shallowly embedded in Lean.

Python strings are modelled as lists of characters (`PyStr`), Python sets
of strings as `Finset PyStr`, and the thread pool's submit-all-then-collect
loop as a left fold over the submitted unit list; the possibility that a
unit raises a Python runtime error is modelled by an explicit oracle
`exec : combo → Except String (Finset PyStr)`, instantiated with the
always-succeeding `process_combo` for the program as written.
-/

/-- Python strings, modelled as lists of characters. -/
abbrev PyStr : Type := List Char

/-- `MAX_THREADS = 10`. -/
def MAX_THREADS : Nat := 10

/-- `JOIN_SYMBOLS = ["", "_", "@", "-", ".", "$", "#", "!", "&"]`. -/
def JOIN_SYMBOLS : List PyStr :=
  ["", "_", "@", "-", ".", "$", "#", "!", "&"].map String.toList

/-- The leetspeak substitution table `LEET_DICT`. -/
def LEET_DICT : List (Char × List Char) :=
  [('a', ['a', '@', '4']),
   ('b', ['b', '8']),
   ('e', ['e', '3']),
   ('g', ['g', '9']),
   ('i', ['i', '1', '!']),
   ('l', ['l', '1']),
   ('o', ['o', '0']),
   ('s', ['s', '$', '5']),
   ('t', ['t', '7']),
   ('z', ['z', '2'])]

/-- `leetspeak_variations(word)`: recursively expands the word, lowercasing
    each character and substituting it by every entry of its `LEET_DICT`
    row (or keeping the lowercased character when untabulated). -/
def leetspeak_variations : PyStr → List PyStr
  | [] => [[]]
  | c :: rest =>
    let first_char := c.toLower
    let variations := leetspeak_variations rest
    match LEET_DICT.lookup first_char with
    | some subs => subs.flatMap (fun ch => variations.map (fun var => ch :: var))
    | none => variations.map (fun var => first_char :: var)

/-- The per-character substitution candidates implied by
    `leetspeak_variations`: the `LEET_DICT` row of the lowercased
    character, or the lowercased character alone when untabulated. -/
def leet_candidates (c : Char) : List Char :=
  match LEET_DICT.lookup c.toLower with
  | some subs => subs
  | none => [c.toLower]

/-- `process_combo(combo, years)` (the Mutation Engine); the Python set is
    a `Finset`, the three nested `for` loops are left folds. -/
def process_combo (combo : List PyStr) (years : List PyStr) : Finset PyStr :=
  let base_word : PyStr := combo.flatten
  let leet_variants :=
    if base_word.length > 12 then [base_word] else leetspeak_variations base_word
  leet_variants.foldl (fun s variant =>
    let s := insert variant s
    let s := years.foldl
      (fun s year => insert (year ++ variant) (insert (variant ++ year) s)) s
    JOIN_SYMBOLS.foldl (fun s symbol =>
      let joined := List.intercalate symbol combo
      let s := insert joined s
      years.foldl
        (fun s year => insert (year ++ joined) (insert (joined ++ year) s)) s) s)
    ∅

/-- `itertools.combinations(l, r)` in Python's enumeration order: every
    length-`r` subsequence of `l`, lexicographic by index. -/
def combinations {α : Type} : Nat → List α → List (List α)
  | 0, _ => [[]]
  | _ + 1, [] => []
  | r + 1, x :: xs => (combinations r xs).map (fun t => x :: t) ++ combinations (r + 1) xs

/-- The combination list built in `generate_wordlist` (and recounted in
    `main`): `chain.from_iterable(combinations(words, r) for r in
    range(1, min(6, len(words)+1)))`. -/
def combos_of {α : Type} (words : List α) : List (List α) :=
  (List.range' 1 (min 6 (words.length + 1) - 1)).flatMap (fun r => combinations r words)

/-- The observable outcome of one `generate_wordlist` run: the aggregated
    word set `final_words`, the shared `processed` counter, and the
    per-combo errors printed by the collection loop. -/
structure RunResult (α : Type) where
  final_words : Finset PyStr
  processed : Nat
  errors : List (List α × String)

/-- `wrapped_process`: runs the unit and increments the `processed`
    counter only after `process_combo` has returned; an exception raised
    by the unit propagates and skips the increment.  The oracle `exec`
    says whether the unit's `process_combo` call returns or raises. -/
def wrapped_process {α : Type} (exec : List α → Except String (Finset PyStr))
    (combo : List α) (processed : Nat) : Except String (Finset PyStr × Nat) :=
  match exec combo with
  | .ok result => .ok (result, processed + 1)
  | .error e => .error e

/-- One step of the result-collection loop of `generate_wordlist`:
    `future.result()` either yields the unit's set, merged into
    `final_words` by `update`, or re-raises the unit's exception, which is
    caught and printed together with the combo. -/
def collect_step {α : Type} (exec : List α → Except String (Finset PyStr))
    (st : RunResult α) (combo : List α) : RunResult α :=
  match wrapped_process exec combo st.processed with
  | .ok (result, p) => { st with final_words := st.final_words ∪ result, processed := p }
  | .error e => { st with errors := st.errors ++ [(combo, e)] }

/-- The submit-all-then-collect loop of `generate_wordlist`, over an
    explicit list of submitted units. -/
def run_units {α : Type} (exec : List α → Except String (Finset PyStr))
    (units : List (List α)) : RunResult α :=
  units.foldl (collect_step exec) ⟨∅, 0, []⟩

/-- `generate_wordlist(words, years)` with a failure oracle for the units. -/
def generate_wordlist_with {α : Type} (exec : List α → Except String (Finset PyStr))
    (words : List α) : RunResult α :=
  run_units exec (combos_of words)

/-- `generate_wordlist(words, years)` as written: every unit computes
    `process_combo(combo, years)` and never raises. -/
def generate_wordlist (words years : List PyStr) : RunResult PyStr :=
  generate_wordlist_with (fun combo => .ok (process_combo combo years)) words

/-- A Python value passed where a token is expected: a string, or `None`,
    modelling malformed token input. -/
abbrev PyVal : Type := Option PyStr

/-- What a unit does on possibly-malformed tokens: `''.join` and
    `symbol.join` raise `TypeError` inside the worker when the combo holds
    a non-string; otherwise the unit is `process_combo`. -/
def exec_dyn (years : List PyStr) (combo : List PyVal) : Except String (Finset PyStr) :=
  match combo.mapM id with
  | some toks => .ok (process_combo toks years)
  | none => .error "TypeError"

/-- `generate_wordlist` run on possibly-malformed token input. -/
def generate_wordlist_dyn (vals : List PyVal) (years : List PyStr) : RunResult PyVal :=
  generate_wordlist_with (exec_dyn years) vals

/-- Union of a list of finsets. -/
def unionAll (l : List (Finset PyStr)) : Finset PyStr := l.foldr (· ∪ ·) ∅

/-- The year affixes of one word, per the spec: the word with each year
    appended and with each year prepended. -/
def yearAffixes (years : List PyStr) (w : PyStr) : Finset PyStr :=
  unionAll (years.map (fun year => {w ++ year, year ++ w}))

/-- The Mutation Engine's output as §4.2 of the spec describes it: leet
    variants of the no-separator base word (expansion guarded at 12
    characters), each with year affixes, plus every symbol-joined form of
    the combo, each with year affixes. -/
def mutate_spec (combo years : List PyStr) : Finset PyStr :=
  let base_word : PyStr := combo.flatten
  let leet_variants : List PyStr :=
    if base_word.length ≤ 12 then leetspeak_variations base_word else [base_word]
  let joined_forms : List PyStr :=
    JOIN_SYMBOLS.map (fun symbol => List.intercalate symbol combo)
  leet_variants.toFinset ∪ unionAll (leet_variants.map (yearAffixes years)) ∪
    (joined_forms.toFinset ∪ unionAll (joined_forms.map (yearAffixes years)))

/-! ### Lemmas about the Leet Expander -/

theorem lookup_mem {d : List (Char × List Char)} {c : Char} {l : List Char}
    (h : d.lookup c = some l) : (c, l) ∈ d := by
  induction d with
  | nil => simp [List.lookup] at h
  | cons p d ih =>
    obtain ⟨k, v⟩ := p
    rw [List.lookup] at h
    by_cases hc : c == k
    · have hck : c = k := beq_iff_eq.mp hc
      subst hck
      simp only [hc] at h
      obtain rfl := Option.some.inj h
      exact List.mem_cons_self _ _
    · simp only [Bool.not_eq_true] at hc
      rw [hc] at h
      exact List.mem_cons_of_mem _ (ih h)

theorem leetspeak_cons (c : Char) (rest : PyStr) :
    leetspeak_variations (c :: rest) =
      (leet_candidates c).flatMap
        (fun ch => (leetspeak_variations rest).map (fun var => ch :: var)) := by
  rw [leetspeak_variations, leet_candidates]
  cases h : LEET_DICT.lookup c.toLower <;> simp [h]

theorem leetspeak_length (w : PyStr) :
    (leetspeak_variations w).length =
      (w.map (fun c => (leet_candidates c).length)).prod := by
  induction w with
  | nil => rfl
  | cons c rest ih =>
    rw [leetspeak_cons, List.length_flatMap]
    simp [Function.comp_def, ih, List.map_const', mul_comm]

theorem leet_dict_vals_nodup : ∀ p ∈ LEET_DICT, p.2.Nodup := by decide

theorem leet_dict_vals_ne_nil : ∀ p ∈ LEET_DICT, p.2 ≠ [] := by decide

theorem leet_candidates_nodup (c : Char) : (leet_candidates c).Nodup := by
  rw [leet_candidates]
  cases h : LEET_DICT.lookup c.toLower with
  | none => simp
  | some subs => exact leet_dict_vals_nodup _ (lookup_mem h)

theorem leetspeak_nodup (w : PyStr) : (leetspeak_variations w).Nodup := by
  induction w with
  | nil => simp [leetspeak_variations]
  | cons c rest ih =>
    rw [leetspeak_cons, List.nodup_flatMap]
    refine ⟨fun ch _ => ih.map (fun a b hab => (List.cons.injEq _ _ _ _ ▸ hab).2), ?_⟩
    refine (leet_candidates_nodup c).imp ?_
    intro a b hab x hxa hxb
    simp only [List.mem_map] at hxa hxb
    obtain ⟨v, _, rfl⟩ := hxa
    obtain ⟨v', _, h⟩ := hxb
    exact hab (List.cons.injEq _ _ _ _ ▸ h).1.symm

theorem leet_candidates_ne_nil (c : Char) : leet_candidates c ≠ [] := by
  rw [leet_candidates]
  cases h : LEET_DICT.lookup c.toLower with
  | none => simp
  | some subs =>
    exact leet_dict_vals_ne_nil _ (lookup_mem h)

theorem leetspeak_ne_nil (w : PyStr) : leetspeak_variations w ≠ [] := by
  induction w with
  | nil => simp [leetspeak_variations]
  | cons c rest ih =>
    rw [leetspeak_cons]
    intro h
    rcases List.flatMap_eq_nil_iff.mp h with hall
    rcases List.exists_mem_of_ne_nil _ (leet_candidates_ne_nil c) with ⟨ch, hch⟩
    have := hall ch hch
    simp only [List.map_eq_nil_iff] at this
    exact ih this

/-- C4: `leetspeak_variations` returns a duplicate-free collection whose
    size is the product, over the characters of the lowercased input, of
    the number of substitution candidates of each character (the table
    row's length for tabulated letters, 1 otherwise); the expansion of the
    empty string is exactly the singleton of the empty string. -/
theorem leetspeak_variations_correct (w : PyStr) :
    (leetspeak_variations w).Nodup ∧
      (leetspeak_variations w).length =
        (w.map (fun c => (leet_candidates c).length)).prod ∧
      leetspeak_variations [] = [[]] :=
  ⟨leetspeak_nodup w, leetspeak_length w, rfl⟩

/-! ### Lemmas about the Mutation Engine -/

theorem mem_unionAll {w : PyStr} {l : List (Finset PyStr)} :
    w ∈ unionAll l ↔ ∃ s ∈ l, w ∈ s := by
  induction l with
  | nil => simp [unionAll]
  | cons s l ih =>
    simp only [unionAll, List.foldr_cons, Finset.mem_union, List.mem_cons] at ih ⊢
    rw [ih]
    constructor
    · rintro (h | ⟨t, ht, hw⟩)
      · exact ⟨s, Or.inl rfl, h⟩
      · exact ⟨t, Or.inr ht, hw⟩
    · rintro ⟨t, (rfl | ht), hw⟩
      · exact Or.inl hw
      · exact Or.inr ⟨t, ht, hw⟩

theorem foldl_acc_union {α : Type} (F : Finset PyStr → α → Finset PyStr)
    (g : α → Finset PyStr) (hF : ∀ s a, F s a = s ∪ g a) :
    ∀ (l : List α) (s0 : Finset PyStr), l.foldl F s0 = s0 ∪ unionAll (l.map g) := by
  intro l
  induction l with
  | nil => intro s0; simp [unionAll]
  | cons a l ih =>
    intro s0
    rw [List.foldl_cons, ih, hF]
    show s0 ∪ g a ∪ unionAll (l.map g) = s0 ∪ unionAll (List.map g (a :: l))
    rw [List.map_cons]
    show s0 ∪ g a ∪ unionAll (l.map g) = s0 ∪ (g a ∪ unionAll (l.map g))
    rw [Finset.union_assoc]

theorem years_foldl (years : List PyStr) (v : PyStr) (s0 : Finset PyStr) :
    years.foldl (fun s year => insert (year ++ v) (insert (v ++ year) s)) s0 =
      s0 ∪ yearAffixes years v := by
  rw [foldl_acc_union _ (fun year => {v ++ year, year ++ v})]
  · rfl
  · intro s a
    ext x
    simp only [Finset.mem_insert, Finset.mem_union, Finset.mem_singleton]
    tauto

theorem symbols_foldl (combo years : List PyStr) (s0 : Finset PyStr) :
    JOIN_SYMBOLS.foldl (fun s symbol =>
      let joined := List.intercalate symbol combo
      let s := insert joined s
      years.foldl
        (fun s year => insert (year ++ joined) (insert (joined ++ year) s)) s) s0 =
      s0 ∪ unionAll (JOIN_SYMBOLS.map (fun symbol =>
        {List.intercalate symbol combo} ∪
          yearAffixes years (List.intercalate symbol combo))) := by
  rw [foldl_acc_union _ (fun symbol =>
    {List.intercalate symbol combo} ∪ yearAffixes years (List.intercalate symbol combo))]
  intro s a
  show years.foldl _ (insert (List.intercalate a combo) s) = _
  rw [years_foldl]
  ext x
  simp only [Finset.mem_union, Finset.mem_insert, Finset.mem_singleton]
  tauto

theorem mem_unionAll_map {β : Type} (f : β → Finset PyStr) (l : List β) (x : PyStr) :
    x ∈ unionAll (l.map f) ↔ ∃ b ∈ l, x ∈ f b := by
  rw [mem_unionAll]
  constructor
  · rintro ⟨s, hs, hx⟩
    rcases List.mem_map.mp hs with ⟨b, hb, rfl⟩
    exact ⟨b, hb, hx⟩
  · rintro ⟨b, hb, hx⟩
    exact ⟨f b, List.mem_map_of_mem f hb, hx⟩

theorem process_combo_eq_spec (combo years : List PyStr) :
    process_combo combo years = mutate_spec combo years := by
  rw [process_combo, mutate_spec]
  set base_word : PyStr := combo.flatten with hbase
  have hguard : (if base_word.length > 12 then [base_word]
      else leetspeak_variations base_word) =
      (if base_word.length ≤ 12 then leetspeak_variations base_word
      else [base_word]) := by
    by_cases hlen : base_word.length ≤ 12
    · rw [if_pos hlen, if_neg (by omega)]
    · rw [if_neg hlen, if_pos (by omega)]
  rw [hguard]
  set lv : List PyStr := (if base_word.length ≤ 12 then leetspeak_variations base_word
      else [base_word]) with hlv
  have hne : lv ≠ [] := by
    rw [hlv]
    by_cases hlen : base_word.length ≤ 12
    · rw [if_pos hlen]; exact leetspeak_ne_nil _
    · rw [if_neg hlen]; simp
  rw [foldl_acc_union _ (fun variant =>
      {variant} ∪ yearAffixes years variant ∪
        unionAll (JOIN_SYMBOLS.map (fun symbol =>
          {List.intercalate symbol combo} ∪
            yearAffixes years (List.intercalate symbol combo))))]
  · obtain ⟨v0, hv0⟩ := List.exists_mem_of_ne_nil lv hne
    ext x
    simp only [Finset.empty_union, Finset.mem_union, List.mem_toFinset,
      mem_unionAll_map, Finset.mem_singleton, List.mem_map, List.map_map,
      Function.comp_def]
    constructor
    · rintro ⟨v, hv, ((rfl | hx) | ⟨sym, hsym, (rfl | hx)⟩)⟩
      · exact Or.inl (Or.inl hv)
      · exact Or.inl (Or.inr ⟨v, hv, hx⟩)
      · exact Or.inr (Or.inl ⟨sym, hsym, rfl⟩)
      · exact Or.inr (Or.inr ⟨sym, hsym, hx⟩)
    · rintro ((hx | ⟨v, hv, hx⟩) | (⟨sym, hsym, rfl⟩ | ⟨sym, hsym, hx⟩))
      · exact ⟨x, hx, Or.inl (Or.inl rfl)⟩
      · exact ⟨v, hv, Or.inl (Or.inr hx)⟩
      · exact ⟨v0, hv0, Or.inr ⟨sym, hsym, Or.inl rfl⟩⟩
      · exact ⟨v0, hv0, Or.inr ⟨sym, hsym, Or.inr hx⟩⟩
  · intro s a
    show JOIN_SYMBOLS.foldl _ (years.foldl _ (insert a s)) = _
    rw [symbols_foldl, years_foldl]
    ext x
    simp only [Finset.mem_union, Finset.mem_insert, Finset.mem_singleton]
    tauto

theorem intercalate_single (s t : PyStr) : List.intercalate s [t] = t := by
  simp [List.intercalate]

theorem intercalate_nil_flatten : ∀ l : List PyStr, List.intercalate [] l = l.flatten := by
  intro l
  induction l with
  | nil => rfl
  | cons a t ih =>
    cases t with
    | nil => simp [List.intercalate]
    | cons b t2 =>
      simp [List.intercalate, List.intersperse_cons_cons] at ih ⊢
      exact ih

/-! ### Lemmas about the Combination Enumerator -/

theorem length_combinations {α : Type} :
    ∀ (r : Nat) (l : List α), (combinations r l).length = Nat.choose l.length r := by
  intro r
  induction r with
  | zero => intro l; simp [combinations]
  | succ r ih =>
    intro l
    induction l with
    | nil => rfl
    | cons x xs ihl =>
      simp only [combinations, List.length_append, List.length_map, ih, ihl,
        List.length_cons, Nat.choose_succ_succ]

theorem mem_combinations {α : Type} :
    ∀ (r : Nat) (l : List α) (s : List α),
      s ∈ combinations r l ↔ s.Sublist l ∧ s.length = r := by
  intro r
  induction r with
  | zero =>
    intro l s
    constructor
    · intro hs
      simp only [combinations, List.mem_singleton] at hs
      subst hs
      exact ⟨List.nil_sublist l, rfl⟩
    · rintro ⟨_, hlen⟩
      cases s with
      | nil => simp [combinations]
      | cons a t => simp at hlen
  | succ r ih =>
    intro l
    induction l with
    | nil =>
      intro s
      simp only [combinations, List.not_mem_nil, false_iff]
      rintro ⟨hsub, hlen⟩
      rw [List.sublist_nil] at hsub
      subst hsub
      simp at hlen
    | cons x xs ihl =>
      intro s
      simp only [combinations, List.mem_append, List.mem_map]
      constructor
      · rintro (⟨t, ht, rfl⟩ | hs)
        · rcases (ih xs t).mp ht with ⟨hsub, hlen⟩
          exact ⟨hsub.cons₂ x, by simp [hlen]⟩
        · rcases (ihl s).mp hs with ⟨hsub, hlen⟩
          exact ⟨hsub.cons x, hlen⟩
      · rintro ⟨hsub, hlen⟩
        rcases List.sublist_cons_iff.mp hsub with hs | ⟨t, rfl, ht⟩
        · exact Or.inr ((ihl s).mpr ⟨hs, hlen⟩)
        · exact Or.inl ⟨t, (ih xs t).mpr ⟨ht, by simpa using hlen⟩, rfl⟩

theorem nodup_combinations {α : Type} :
    ∀ (r : Nat) (l : List α), l.Nodup → (combinations r l).Nodup := by
  intro r
  induction r with
  | zero => intro l _; simp [combinations]
  | succ r ih =>
    intro l
    induction l with
    | nil => intro _; simp [combinations]
    | cons x xs ihl =>
      intro hnd
      have hx : x ∉ xs := (List.nodup_cons.mp hnd).1
      have hxs : xs.Nodup := (List.nodup_cons.mp hnd).2
      simp only [combinations]
      rw [List.nodup_append]
      refine ⟨(ih xs hxs).map List.cons_injective, ihl hxs, ?_⟩
      intro s hs1 hs2
      rcases List.mem_map.mp hs1 with ⟨t, _, rfl⟩
      have hsub := ((mem_combinations (r + 1) xs (x :: t)).mp hs2).1
      exact hx (hsub.subset (List.mem_cons_self x t))

theorem combos_of_eq {α : Type} (words : List α) :
    combos_of words =
      (List.range' 1 (min 5 words.length)).flatMap (fun r => combinations r words) := by
  rw [combos_of]
  have h5 : min 6 (words.length + 1) - 1 = min 5 words.length := by omega
  rw [h5]

theorem sum_map_range' (g : Nat → Nat) :
    ∀ k, ((List.range' 1 k).map g).sum = ∑ r ∈ Finset.Icc 1 k, g r := by
  intro k
  induction k with
  | zero => simp
  | succ k ih =>
    rw [List.range'_concat, List.map_append, List.sum_append, ih,
      Finset.sum_Icc_succ_top (by omega)]
    simp [Nat.add_comm]

theorem length_combos_of {α : Type} (words : List α) :
    (combos_of words).length =
      ∑ r ∈ Finset.Icc 1 (min 5 words.length), Nat.choose words.length r := by
  rw [combos_of_eq, List.length_flatMap]
  simp only [Function.comp_def, length_combinations]
  exact sum_map_range' _ _

theorem mem_combos_of {α : Type} (words : List α) (s : List α) :
    s ∈ combos_of words ↔
      s.Sublist words ∧ 1 ≤ s.length ∧ s.length ≤ min 5 words.length := by
  rw [combos_of_eq, List.mem_flatMap]
  constructor
  · rintro ⟨r, hr, hs⟩
    rcases (mem_combinations r words s).mp hs with ⟨hsub, rfl⟩
    rcases List.mem_range'_1.mp hr with ⟨h1, h2⟩
    exact ⟨hsub, h1, by omega⟩
  · rintro ⟨hsub, h1, h2⟩
    exact ⟨s.length, List.mem_range'_1.mpr ⟨h1, by omega⟩,
      (mem_combinations _ _ _).mpr ⟨hsub, rfl⟩⟩

theorem count_eq_one_of_nodup_mem {α : Type} [BEq α] [LawfulBEq α] {l : List α} {a : α}
    (h : l.Nodup) (ha : a ∈ l) : l.count a = 1 := by
  induction l with
  | nil => cases ha
  | cons b t ih =>
    rcases List.mem_cons.mp ha with rfl | hat
    · rw [List.count_cons]
      have hbt : a ∉ t := (List.nodup_cons.mp h).1
      rw [List.count_eq_zero.mpr hbt]
      simp
    · rw [List.count_cons]
      have hne : b ≠ a := by
        rintro rfl
        exact (List.nodup_cons.mp h).1 hat
      rw [ih (List.nodup_cons.mp h).2 hat]
      simp [hne]

theorem nodup_combos_of {α : Type} (words : List α) (h : words.Nodup) :
    (combos_of words).Nodup := by
  rw [combos_of_eq, List.nodup_flatMap]
  refine ⟨fun r _ => nodup_combinations r words h, ?_⟩
  have hnd := List.nodup_range' 1 (min 5 words.length)
  refine hnd.imp ?_
  intro a b hab s hsa hsb
  have h1 := ((mem_combinations a words s).mp hsa).2
  have h2 := ((mem_combinations b words s).mp hsb).2
  exact hab (h1.symm.trans h2)

/-- C1 (amended): the combos built in `generate_wordlist` are, for each
    size `r` from 1 to `min(5, N)` (not `min(6, N)`: Python's
    `range(1, min(6, N+1))` stops at 5), every `r`-subset of the tokens —
    order-preserving sublists — exactly once when the tokens are distinct,
    and the total count is `Σ C(N, r)` for `r` in `[1, min(5, N)]`. -/
theorem combination_enumerator_correct (words : List PyStr) :
    (combos_of words).length =
        ∑ r ∈ Finset.Icc 1 (min 5 words.length), Nat.choose words.length r ∧
      (∀ s, s ∈ combos_of words ↔
        s.Sublist words ∧ 1 ≤ s.length ∧ s.length ≤ min 5 words.length) ∧
      (words.Nodup → ∀ s ∈ combos_of words, (combos_of words).count s = 1) :=
  ⟨length_combos_of words, fun s => mem_combos_of words s,
    fun h _ hs => count_eq_one_of_nodup_mem (nodup_combos_of words h) hs⟩

/-- Witness for C1's amended claim at the spec's own example
    `["al", "99"]`: the size-2 combination appears exactly once. -/
theorem combination_enumerator_correct_witness :
    (combos_of [['a','l'], ['9','9']]).count [['a','l'], ['9','9']] = 1 :=
  (combination_enumerator_correct [['a','l'], ['9','9']]).2.2 (by decide) _ (by decide)

/-- Counterexample to C1 as stated: with six distinct tokens the
    enumerator produces 62 combinations, not `Σ C(6, r), r ∈ [1, 6]` = 63,
    and the unique size-6 subset is never produced. -/
theorem combination_enumerator_claim_false :
    (combos_of [['a'], ['b'], ['c'], ['d'], ['e'], ['f']]).length ≠
        (∑ r ∈ Finset.Icc 1 (min 6 ([['a'], ['b'], ['c'], ['d'], ['e'], ['f']] :
          List PyStr).length), Nat.choose 6 r) ∧
      [['a'], ['b'], ['c'], ['d'], ['e'], ['f']] ∉
        combos_of [['a'], ['b'], ['c'], ['d'], ['e'], ['f']] := by
  constructor
  · decide
  · decide

/-! ### Lemmas about the Parallel Expansion Coordinator -/

theorem unionAll_cons (s : Finset PyStr) (l : List (Finset PyStr)) :
    unionAll (s :: l) = s ∪ unionAll l := rfl

theorem isOk_ok {ε α : Type} (a : α) : (Except.ok a : Except ε α).isOk = true := rfl

theorem isOk_error {ε α : Type} (e : ε) : (Except.error e : Except ε α).isOk = false := rfl

theorem run_final_general {α : Type} (exec : List α → Except String (Finset PyStr)) :
    ∀ (units : List (List α)) (st : RunResult α),
      (units.foldl (collect_step exec) st).final_words =
        st.final_words ∪ unionAll (units.filterMap (fun c => (exec c).toOption)) := by
  intro units
  induction units with
  | nil => intro st; simp [unionAll]
  | cons c units ih =>
    intro st
    rw [List.foldl_cons, ih]
    cases hc : exec c with
    | ok res =>
      simp only [collect_step, wrapped_process, hc, List.filterMap_cons,
        Except.toOption, unionAll_cons]
      exact Finset.union_assoc _ _ _
    | error e =>
      simp only [collect_step, wrapped_process, hc, List.filterMap_cons,
        Except.toOption]

theorem run_processed_general {α : Type} (exec : List α → Except String (Finset PyStr)) :
    ∀ (units : List (List α)) (st : RunResult α),
      (units.foldl (collect_step exec) st).processed =
        st.processed + units.countP (fun c => (exec c).isOk) := by
  intro units
  induction units with
  | nil => intro st; simp
  | cons c units ih =>
    intro st
    rw [List.foldl_cons, ih]
    cases hc : exec c with
    | ok res =>
      simp only [collect_step, wrapped_process, hc, List.countP_cons, isOk_ok]
      simp
      omega
    | error e =>
      simp only [collect_step, wrapped_process, hc, List.countP_cons, isOk_error]
      simp

theorem run_errors_general {α : Type} (exec : List α → Except String (Finset PyStr)) :
    ∀ (units : List (List α)) (st : RunResult α),
      (units.foldl (collect_step exec) st).errors =
        st.errors ++ units.filterMap (fun c =>
          match exec c with
          | .ok _ => none
          | .error e => some (c, e)) := by
  intro units
  induction units with
  | nil => intro st; simp
  | cons c units ih =>
    intro st
    rw [List.foldl_cons, ih]
    cases hc : exec c with
    | ok res =>
      simp only [collect_step, wrapped_process, hc, List.filterMap_cons]
    | error e =>
      simp only [collect_step, wrapped_process, hc, List.filterMap_cons]
      simp

theorem run_units_spec {α : Type} (exec : List α → Except String (Finset PyStr))
    (units : List (List α)) :
    (run_units exec units).final_words =
        unionAll (units.filterMap (fun c => (exec c).toOption)) ∧
      (run_units exec units).processed = units.countP (fun c => (exec c).isOk) ∧
      (run_units exec units).errors = units.filterMap (fun c =>
        match exec c with
        | .ok _ => none
        | .error e => some (c, e)) := by
  refine ⟨?_, ?_, ?_⟩
  · rw [run_units, run_final_general]
    exact Finset.empty_union _
  · rw [run_units, run_processed_general]
    exact Nat.zero_add _
  · rw [run_units, run_errors_general]
    rfl

theorem toOption_eq_some {ε α : Type} (x : Except ε α) (a : α) :
    x.toOption = some a ↔ x = .ok a := by
  cases x <;> simp [Except.toOption]

theorem mem_run_units_final {α : Type} (exec : List α → Except String (Finset PyStr))
    (units : List (List α)) (w : PyStr) :
    w ∈ (run_units exec units).final_words ↔
      ∃ c ∈ units, ∃ S, exec c = .ok S ∧ w ∈ S := by
  rw [(run_units_spec exec units).1, mem_unionAll]
  constructor
  · rintro ⟨s, hs, hw⟩
    rcases List.mem_filterMap.mp hs with ⟨c, hc, hcs⟩
    exact ⟨c, hc, s, (toOption_eq_some _ _).mp hcs, hw⟩
  · rintro ⟨c, hc, S, hok, hw⟩
    exact ⟨S, List.mem_filterMap.mpr ⟨c, hc, (toOption_eq_some _ _).mpr hok⟩, hw⟩

theorem unionAll_perm {l₁ l₂ : List (Finset PyStr)} (h : l₁.Perm l₂) :
    unionAll l₁ = unionAll l₂ := by
  ext x
  rw [mem_unionAll, mem_unionAll]
  constructor <;> rintro ⟨s, hs, hx⟩
  exacts [⟨s, h.mem_iff.mp hs, hx⟩, ⟨s, h.mem_iff.mpr hs, hx⟩]

/-- C5: the word set returned by `generate_wordlist` is exactly the union
    of `process_combo(combo, years)` over every (successfully completed)
    combination, with set semantics, and is unchanged when the units are
    collected in any other order. -/
theorem generate_wordlist_exact_union (words years : List PyStr) :
    (∀ w, w ∈ (generate_wordlist words years).final_words ↔
        ∃ c ∈ combos_of words, w ∈ process_combo c years) ∧
      ∀ units, units.Perm (combos_of words) →
        (run_units (fun combo => .ok (process_combo combo years)) units).final_words =
          (generate_wordlist words years).final_words := by
  constructor
  · intro w
    rw [generate_wordlist, generate_wordlist_with, mem_run_units_final]
    constructor
    · rintro ⟨c, hc, S, hS, hw⟩
      obtain rfl : process_combo c years = S := Except.ok.inj hS
      exact ⟨c, hc, hw⟩
    · rintro ⟨c, hc, hw⟩
      exact ⟨c, hc, process_combo c years, rfl, hw⟩
  · intro units hperm
    rw [generate_wordlist, generate_wordlist_with,
      (run_units_spec _ _).1, (run_units_spec _ _).1]
    exact unionAll_perm (hperm.filterMap _)

/-- Witness for C5 at tokens `["a", "b"]`, years `["2"]`, with the units
    collected in a different order. -/
theorem generate_wordlist_exact_union_witness :
    (run_units (fun combo => .ok (process_combo combo [['2']]))
        [[['b']], [['a']], [['a'], ['b']]]).final_words =
      (generate_wordlist [['a'], ['b']] [['2']]).final_words :=
  (generate_wordlist_exact_union [['a'], ['b']] [['2']]).2
    [[['b']], [['a']], [['a'], ['b']]] (by decide)

/-- C2 (amended): the `processed` counter is incremented exactly once per
    successfully completed unit and not at all for a failing unit, so at
    the end of the run it equals the number of successful units; in the
    program as written, where no unit raises, it equals the total number
    of combinations submitted. -/
theorem processed_counts_successes (exec : List PyStr → Except String (Finset PyStr))
    (words years : List PyStr) :
    (generate_wordlist_with exec words).processed =
        (combos_of words).countP (fun c => (exec c).isOk) ∧
      (generate_wordlist words years).processed = (combos_of words).length := by
  constructor
  · exact (run_units_spec exec (combos_of words)).2.1
  · rw [generate_wordlist, generate_wordlist_with, (run_units_spec _ _).2.1]
    exact List.countP_eq_length.mpr (fun c _ => rfl)

/-- Counterexample to C2 as stated: a run whose single unit raises ends
    with the completed-units counter at 0, not at the submitted total 1 —
    the counter is not updated for failing units. -/
theorem processed_misses_failed_units :
    (generate_wordlist_with
        (fun _ => (Except.error "boom" : Except String (Finset PyStr)))
        [['a']]).processed = 0 ∧
      (combos_of [(['a'] : PyStr)]).length = 1 ∧ (0 : Nat) ≠ 1 :=
  ⟨rfl, rfl, by decide⟩

theorem filterMap_eq_single {α β : Type} [BEq α] [LawfulBEq α] (f : α → Option β) :
    ∀ (l : List α) (a0 : α) (b : β), l.count a0 = 1 → f a0 = some b →
      (∀ a ∈ l, a ≠ a0 → f a = none) → l.filterMap f = [b] := by
  intro l
  induction l with
  | nil =>
    intro a0 b h1 _ _
    simp at h1
  | cons a t ih =>
    intro a0 b h1 h2 h3
    by_cases ha : a = a0
    · subst ha
      rw [List.count_cons, beq_self_eq_true, if_pos rfl] at h1
      have h0 : a ∉ t := List.count_eq_zero.mp (by omega)
      rw [List.filterMap_cons, h2]
      have ht : t.filterMap f = [] := List.filterMap_eq_nil_iff.mpr
        (fun x hx => h3 x (List.mem_cons_of_mem _ hx) (fun hxa => h0 (hxa ▸ hx)))
      rw [ht]
    · rw [List.filterMap_cons, h3 a (List.mem_cons_self a t) ha]
      rw [List.count_cons, beq_false_of_ne ha] at h1
      simp only [Bool.false_eq_true, if_false, Nat.add_zero] at h1
      exact ih a0 b h1 h2 (fun x hx => h3 x (List.mem_cons_of_mem _ hx))

/-- C6: in a run where exactly one unit's mutation raises, the coordinator
    records that combination together with its error and continues: the
    run completes and the returned set is exactly the union of the result
    sets of the non-failing units. -/
theorem failure_isolation (exec : List PyStr → Except String (Finset PyStr))
    (words : List PyStr) (c0 : List PyStr) (e : String)
    (hcount : (combos_of words).count c0 = 1)
    (hfail : exec c0 = .error e)
    (hok : ∀ c ∈ combos_of words, c ≠ c0 → (exec c).isOk) :
    (generate_wordlist_with exec words).errors = [(c0, e)] ∧
      ∀ w, w ∈ (generate_wordlist_with exec words).final_words ↔
        ∃ c ∈ combos_of words, c ≠ c0 ∧ ∃ S, exec c = .ok S ∧ w ∈ S := by
  constructor
  · rw [generate_wordlist_with, (run_units_spec _ _).2.2]
    apply filterMap_eq_single _ _ c0 (c0, e) hcount (by rw [hfail])
    intro a ha hne
    have hA := hok a ha hne
    cases hE : exec a with
    | ok S => rfl
    | error e2 =>
      rw [hE, isOk_error] at hA
      cases hA
  · intro w
    rw [generate_wordlist_with, mem_run_units_final]
    constructor
    · rintro ⟨c, hc, S, hS, hw⟩
      have hne : c ≠ c0 := by
        rintro rfl
        rw [hfail] at hS
        cases hS
      exact ⟨c, hc, hne, S, hS, hw⟩
    · rintro ⟨c, hc, _, S, hS, hw⟩
      exact ⟨c, hc, S, hS, hw⟩

/-- Witness for C6: tokens `["a", "b"]`, where the unit for `("b",)` is
    forced to raise; the error log is exactly that combo with its error. -/
theorem failure_isolation_witness :
    (generate_wordlist_with
        (fun c => if c = [['b']] then Except.error "boom"
          else Except.ok (process_combo c []))
        [['a'], ['b']]).errors = [([['b']], "boom")] :=
  (failure_isolation
    (fun c => if c = [['b']] then Except.error "boom"
      else Except.ok (process_combo c []))
    [['a'], ['b']] [['b']] "boom" (by decide) rfl (by decide)).1

theorem unionAll_nil : unionAll [] = ∅ := rfl

theorem yearAffixes_nil (w : PyStr) : yearAffixes [] w = ∅ := rfl

/-- C3: `process_combo(combo, years)` is exactly the set the spec's
    algorithm describes (`mutate_spec`): all leet variants of the base
    word (full expansion iff its length ≤ 12, else the base word alone),
    each variant with each year appended and prepended, every
    symbol-joined form of the combo, and each joined form with each year
    appended and prepended; an empty year list leaves only the variants
    and the joined forms. -/
theorem process_combo_is_spec_set (combo years : List PyStr) :
    process_combo combo years = mutate_spec combo years ∧
      process_combo combo [] =
        (if combo.flatten.length ≤ 12 then leetspeak_variations combo.flatten
          else [combo.flatten]).toFinset ∪
          (JOIN_SYMBOLS.map (fun symbol => List.intercalate symbol combo)).toFinset := by
  refine ⟨process_combo_eq_spec combo years, ?_⟩
  rw [process_combo_eq_spec combo []]
  simp only [mutate_spec]
  ext x
  simp only [Finset.mem_union, List.mem_toFinset, mem_unionAll_map, yearAffixes_nil,
    Finset.not_mem_empty, exists_prop, and_false, exists_false, or_false]

theorem exec_dyn_ok_iff (years : List PyStr) (c : List PyVal) (S : Finset PyStr) :
    exec_dyn years c = .ok S ↔
      ∃ toks, c.mapM id = some toks ∧ S = process_combo toks years := by
  rw [exec_dyn]
  cases hm : c.mapM id with
  | some toks =>
    simp only [Except.ok.injEq, Option.some.injEq]
    constructor
    · intro h
      exact ⟨toks, rfl, h.symm⟩
    · rintro ⟨toks2, rfl, rfl⟩
      rfl
  | none =>
    simp

theorem filterMap_exec_dyn (years : List PyStr) :
    ∀ l : List (List PyVal),
      (l.filterMap (fun c => match exec_dyn years c with
        | .ok _ => none
        | .error e => some (c, e))) =
      (l.filter (fun c => (c.mapM id).isNone)).map (fun c => (c, "TypeError")) := by
  intro l
  induction l with
  | nil => rfl
  | cons c l ih =>
    rw [List.filterMap_cons, List.filter_cons]
    cases hm : c.mapM id with
    | some toks =>
      have he : exec_dyn years c = .ok (process_combo toks years) := by
        rw [exec_dyn, hm]
      simp [he, hm, ih]
    | none =>
      have he : exec_dyn years c = .error "TypeError" := by
        rw [exec_dyn, hm]
      simp [he, hm, ih]

/-- C7 (amended): `generate_wordlist` performs no configuration check at
    all — a malformed (non-string) token is scheduled like any other, its
    units fail at run time with `TypeError`, those failures are caught and
    reported while the run continues, the result is the union over the
    well-formed combos, and the pool size is the constant 10, never ≤ 0. -/
theorem no_configuration_check (vals : List PyVal) (years : List PyStr) :
    (∀ w, w ∈ (generate_wordlist_dyn vals years).final_words ↔
        ∃ c ∈ combos_of vals, ∃ toks, c.mapM id = some toks ∧
          w ∈ process_combo toks years) ∧
      (generate_wordlist_dyn vals years).errors =
        ((combos_of vals).filter (fun c => (c.mapM id).isNone)).map
          (fun c => (c, "TypeError")) ∧
      MAX_THREADS = 10 := by
  refine ⟨?_, ?_, rfl⟩
  · intro w
    rw [generate_wordlist_dyn, generate_wordlist_with, mem_run_units_final]
    constructor
    · rintro ⟨c, hc, S, hS, hw⟩
      rcases (exec_dyn_ok_iff years c S).mp hS with ⟨toks, hm, rfl⟩
      exact ⟨c, hc, toks, hm, hw⟩
    · rintro ⟨c, hc, toks, hm, hw⟩
      exact ⟨c, hc, process_combo toks years,
        (exec_dyn_ok_iff years c _).mpr ⟨toks, hm, rfl⟩, hw⟩
  · rw [generate_wordlist_dyn, generate_wordlist_with, (run_units_spec _ _).2.2]
    exact filterMap_exec_dyn years (combos_of vals)

/-- Counterexample to C7 as stated: on the malformed input
    `["a", None]` the coordinator does not fail fast — it schedules all 3
    units, the 2 malformed ones fail at run time and are merely reported,
    and the run still returns the well-formed unit's words. -/
theorem no_fail_fast_counterexample :
    (combos_of [some ['a'], (none : PyVal)]).length = 3 ∧
      (generate_wordlist_dyn [some ['a'], none] []).errors =
        [([none], "TypeError"), ([some ['a'], none], "TypeError")] ∧
      (generate_wordlist_dyn [some ['a'], none] []).final_words ≠ ∅ := by
  refine ⟨rfl, rfl, by decide⟩

/-- C10: on an empty token list `generate_wordlist` builds zero
    combinations and returns an empty word list (with a zero counter),
    whatever the year list. -/
theorem empty_tokens_empty_result (years : List PyStr) :
    combos_of ([] : List PyStr) = [] ∧
      (generate_wordlist [] years).final_words = ∅ ∧
      (generate_wordlist [] years).processed = 0 :=
  ⟨rfl, rfl, rfl⟩

theorem leetspeak_identity (t : PyStr)
    (h : ∀ c ∈ t, c.toLower = c ∧ LEET_DICT.lookup c = none) :
    leetspeak_variations t = [t] := by
  induction t with
  | nil => rfl
  | cons c rest ih =>
    rw [leetspeak_cons]
    have hc := h c (List.mem_cons_self c rest)
    have hcand : leet_candidates c = [c] := by
      rw [leet_candidates, hc.1, hc.2]
    rw [hcand, ih (fun x hx => h x (List.mem_cons_of_mem c hx))]
    rfl

/-- C8: for every size-1 combo and every join symbol, the joined form
    equals the base word (no-op join), so join-symbol variation has no
    effect on size-1 combos; in particular `process_combo(("t",), [])`
    for a lowercase token `t` without leet-table letters is exactly
    `{t}`. -/
theorem single_token_join_noop (t : PyStr) :
    (∀ symbol ∈ JOIN_SYMBOLS, List.intercalate symbol [t] = [t].flatten) ∧
      ((∀ c ∈ t, c.toLower = c ∧ LEET_DICT.lookup c = none) →
        process_combo [t] [] = {t}) := by
  constructor
  · intro symbol _
    rw [intercalate_single]
    simp
  · intro h
    rw [process_combo_eq_spec]
    simp only [mutate_spec]
    have hbase : ([t] : List (List Char)).flatten = t := by simp
    rw [hbase]
    have hlv : (if t.length ≤ 12 then leetspeak_variations t else [t]) = [t] := by
      by_cases hlen : t.length ≤ 12
      · rw [if_pos hlen, leetspeak_identity t h]
      · rw [if_neg hlen]
    rw [hlv]
    ext x
    simp [mem_unionAll_map, yearAffixes_nil, intercalate_single, JOIN_SYMBOLS,
      unionAll_cons, unionAll_nil]

/-- Witness for C8 at the spec's own untabulated, lowercase token `"xq"`. -/
theorem single_token_join_noop_witness :
    process_combo [['x', 'q']] [] = {['x', 'q']} :=
  (single_token_join_noop ['x', 'q']).2 (by decide)

/-- C9: the plain no-separator concatenation of the combo's tokens, with
    the original case preserved, is always in `process_combo`'s result
    (it arises from the empty join symbol), for every year list and also
    when the 12-character guard suppresses leet expansion. -/
theorem base_concat_in_result (combo years : List PyStr) (_h : combo ≠ []) :
    combo.flatten ∈ process_combo combo years := by
  rw [process_combo_eq_spec]
  simp only [mutate_spec]
  refine Finset.mem_union_right _ (Finset.mem_union_left _ ?_)
  rw [List.mem_toFinset]
  exact List.mem_map.mpr ⟨[], by decide, intercalate_nil_flatten combo⟩

set_option maxRecDepth 4000 in
/-- Witness for C9 at the mixed-case combo `("Al", "99")` with year
    `"20"`: the case-preserving concatenation `"Al99"` is in the result
    although every leet variant is lowercased. -/
theorem base_concat_in_result_witness :
    [['A', 'l'], ['9', '9']].flatten ∈
      process_combo [['A', 'l'], ['9', '9']] [['2', '0']] :=
  base_concat_in_result [['A', 'l'], ['9', '9']] [['2', '0']] (List.cons_ne_nil _ _)
